import Mathlib

/-!
Shallow embedding of the Backtesting-Framework core (backtester/engine.py,
backtester/metrics.py, backtester/portfolio.py) and proofs about it.

Modelling conventions:
* Python floats are modelled as exact rationals `ℚ` (float rounding itself is
  out of scope); `np.sqrt` values live in `ℝ`.
* `pd.Timestamp` dates are modelled as natural numbers (day counts), so that
  `(exit - entry).days` becomes integer subtraction.
* Python dicts keyed by symbol are modelled either as total functions
  (`engine.py`'s `self.positions`, which is initialised for every symbol) or
  as association lists (`portfolio.py`'s `positions`, where key insertion
  order and membership matter).
* A `float` expression that Python evaluates to `NaN` is modelled as `none`
  in an `Option` result (see `sharpe`).
* An uncaught Python exception is modelled as `none` (see `runBT`, whose only
  failure point is `dates[-1]` on an empty calendar).
-/

namespace BT

/-- Function update on symbol-keyed maps (models assignment `d[sym] = v`). -/
def fupd {β : Type} (f : String → β) (s : String) (v : β) : String → β :=
  fun t => if t = s then v else f t

@[simp]
theorem fupd_same {β : Type} (f : String → β) (s : String) (v : β) : fupd f s v s = v := by
  simp [fupd]

@[simp]
theorem fupd_ne {β : Type} (f : String → β) (s t : String) (v : β) (h : t ≠ s) :
    fupd f s v t = f t := by
  simp [fupd, h]

/-- One executed order, `Fill` from backtester/portfolio.py. -/
structure Fill where
  date : Nat
  symbol : String
  side : String
  qty : Int
  price : ℚ
  commission : ℚ
  cash_after : ℚ
  equity_after : ℚ
deriving DecidableEq, Repr

/-- Cost model, `Costs` from backtester/engine.py. -/
structure Costs where
  commission_rate : ℚ
  slippage_rate : ℚ
deriving DecidableEq, Repr

/-- One symbol's bar table: `Open` and `Close` columns indexed by date, plus
the date index itself. -/
structure MarketData where
  openPx : Nat → ℚ
  closePx : Nat → ℚ
  index : List Nat

/-- The inputs of `Backtester.__init__`. `signal` is the strategy's signal
table after `reindex(calendar).fillna(0).astype(int)`, i.e. a total
integer-valued function of symbol and date. -/
structure BTConfig where
  syms : List String
  data : String → MarketData
  signal : String → Nat → Int
  initial_capital : ℚ
  costs : Costs
  allow_shorts : Bool

/-- Mutable state of `Backtester.run`: `self.cash`, `self.positions`,
`self.fills`, and the `prev_target` dict. -/
structure EngineState where
  cash : ℚ
  positions : String → Int
  fills : List Fill
  prev_target : String → Int

/-- `Backtester._exec_price`: slippage applied against the trader. -/
def execPrice (c : Costs) (side : String) (px : ℚ) : ℚ :=
  if side = "BUY" then px * (1 + c.slippage_rate) else px * (1 - c.slippage_rate)

/-- Insertion step of the date sort used for the calendar. -/
def insertSorted (d : Nat) : List Nat → List Nat
  | [] => [d]
  | x :: xs => if d ≤ x then d :: x :: xs else x :: insertSorted d xs

/-- Sorting of the calendar dates (`idx.sort_values()`). -/
def sortDates (l : List Nat) : List Nat :=
  l.foldr insertSorted []

/-- Common trading calendar: sorted intersection of all symbols' date
indexes (`Backtester.__init__`). For an empty symbol dict Python fails in
`__init__`; that case is outside every claim and mapped to `[]`. -/
def calendar (cfg : BTConfig) : List Nat :=
  match cfg.syms with
  | [] => []
  | s :: rest =>
      sortDates ((rest.foldl (fun acc s2 => acc.filter (fun d => d ∈ (cfg.data s2).index))
        (cfg.data s).index).dedup)

/-- Fixed per-symbol budget: `(initial_capital * 0.95) / max(1, n_symbols)`. -/
def perSymbolBudget (cfg : BTConfig) : ℚ :=
  cfg.initial_capital * (95 / 100) / ((max 1 cfg.syms.length : ℕ) : ℚ)

/-- `Backtester._mark_to_market`: cash plus positions valued at the given
date's Close. -/
def markToMarket (cfg : BTConfig) (st : EngineState) (dt : Nat) : ℚ :=
  st.cash + (cfg.syms.map (fun s => (st.positions s : ℚ) * (cfg.data s).closePx dt)).sum

/-- Target signal after the shorts-disabled remap (engine.py lines 100-104). -/
def procTarget (cfg : BTConfig) (s : String) (dt : Nat) : Int :=
  let tgt_raw := cfg.signal s dt
  if cfg.allow_shorts then tgt_raw else if tgt_raw = 1 then 1 else 0

/-- The `Fill` record built at each `self.fills.append(...)` site: it
snapshots the already-updated cash and the mark-to-market at the decision
date. -/
def mkFill (cfg : BTConfig) (st : EngineState) (dt nd : Nat) (sym side : String)
    (qty : Int) (price comm : ℚ) : Fill :=
  { date := nd, symbol := sym, side := side, qty := qty, price := price,
    commission := comm, cash_after := st.cash, equity_after := markToMarket cfg st dt }

/-- Append one `Fill` recording the (already updated) cash and the
mark-to-market at the decision date (engine.py lines 143-147 et al.). -/
def appendFill (cfg : BTConfig) (st : EngineState) (dt nd : Nat) (sym side : String)
    (qty : Int) (price comm : ℚ) : EngineState :=
  { st with fills := st.fills ++ [mkFill cfg st dt nd sym side qty price comm] }

/-- Exit leg of `Backtester.run` (lines 119-148 and the identical flip-close
lines 150-174): close the current position toward zero.  The BUY side is
capped by affordability; note that a fill is appended even when the cap
reduces the quantity to zero (`if qty == 0: pass` does not skip). -/
def exitLeg (cfg : BTConfig) (dt nd : Nat) (st : EngineState) (sym : String) (opx : ℚ) :
    EngineState :=
  let cur := st.positions sym
  if 0 < cur then
    let price := execPrice cfg.costs "SELL" opx
    let qty : Int := |cur|
    let notional := (qty : ℚ) * price
    let comm := |notional| * cfg.costs.commission_rate
    let st2 :=
      { st with
        cash := st.cash + (notional - comm)
        positions := fupd st.positions sym (cur - qty) }
    appendFill cfg st2 dt nd sym "SELL" qty price comm
  else
    let price := execPrice cfg.costs "BUY" opx
    let per_share_total := price * (1 + cfg.costs.commission_rate)
    let max_afford : Int := max 0 ⌊st.cash / per_share_total⌋
    let qty : Int := min |cur| max_afford
    let notional := (qty : ℚ) * price
    let comm := |notional| * cfg.costs.commission_rate
    let st2 :=
      { st with
        cash := st.cash - (notional + comm)
        positions := fupd st.positions sym (cur + qty) }
    appendFill cfg st2 dt nd sym "BUY" qty price comm

/-- Entry leg of `Backtester.run` (lines 176-209): size a new position from
the per-symbol budget, BUY side capped by affordability; zero sizes produce
no fill (`continue`). The caller guarantees the position is flat. -/
def entryLeg (cfg : BTConfig) (dt nd : Nat) (st : EngineState) (sym : String)
    (target : Int) (opx : ℚ) : EngineState :=
  if 0 < target then
    let price := execPrice cfg.costs "BUY" opx
    let shares0 : Int := ⌊perSymbolBudget cfg / price⌋
    if shares0 ≤ 0 then st
    else
      let per_share_total := price * (1 + cfg.costs.commission_rate)
      let shares : Int := min shares0 (max 0 ⌊st.cash / per_share_total⌋)
      if shares = 0 then st
      else
        let notional := (shares : ℚ) * price
        let comm := |notional| * cfg.costs.commission_rate
        let st2 :=
          { st with
            cash := st.cash - (notional + comm)
            positions := fupd st.positions sym shares }
        appendFill cfg st2 dt nd sym "BUY" shares price comm
  else
    let price := execPrice cfg.costs "SELL" opx
    let shares0 : Int := ⌊perSymbolBudget cfg / price⌋
    if shares0 ≤ 0 then st
    else
      let notional := (shares0 : ℚ) * price
      let comm := |notional| * cfg.costs.commission_rate
      let st2 :=
        { st with
          cash := st.cash + (notional - comm)
          positions := fupd st.positions sym (-shares0) }
      appendFill cfg st2 dt nd sym "SELL" shares0 price comm

/-- Processing of one symbol on one decision date (`Backtester.run` body of
the inner `for sym` loop, lines 98-212). -/
def stepSym (cfg : BTConfig) (dt nd : Nat) (st : EngineState) (sym : String) : EngineState :=
  let target := procTarget cfg sym dt
  if target = st.prev_target sym then st
  else
    let opx := (cfg.data sym).openPx nd
    let cur := st.positions sym
    let st1 :=
      if cur ≠ 0 ∧ target = 0 then exitLeg cfg dt nd st sym opx
      else if cur ≠ 0 ∧ target ≠ 0 ∧ ((0 < target ∧ cur < 0) ∨ (target < 0 ∧ 0 < cur)) then
        exitLeg cfg dt nd st sym opx
      else st
    let st2 :=
      if target ≠ 0 ∧ st1.positions sym = 0 then entryLeg cfg dt nd st1 sym target opx
      else st1
    { st2 with prev_target := fupd st2.prev_target sym target }

/-- One decision date: all symbols processed in order. -/
def stepDay (cfg : BTConfig) (dt nd : Nat) (st : EngineState) : EngineState :=
  cfg.syms.foldl (stepSym cfg dt nd) st

/-- The date loop of `Backtester.run` (lines 92-215): trade on each date
paired with its successor, and record the end-of-day equity mark. -/
def runDays (cfg : BTConfig) : List Nat → EngineState → EngineState × List (Nat × ℚ)
  | dt :: next :: rest, st =>
      let st1 := stepDay cfg dt next st
      let res := runDays cfg (next :: rest) st1
      (res.1, (dt, markToMarket cfg st1 dt) :: res.2)
  | _, st => (st, [])

/-- Initial portfolio state of a run. -/
def initState (cfg : BTConfig) : EngineState :=
  { cash := cfg.initial_capital, positions := fun _ => 0, fills := [],
    prev_target := fun _ => 0 }

/-- Engine state at the end of the date loop (before the final equity mark,
which can raise but never changes state). -/
def runState (cfg : BTConfig) : EngineState :=
  (runDays cfg (calendar cfg) (initState cfg)).1

/-- Engine state after the first `m` iterations of the date loop. -/
def stateAfterDays (cfg : BTConfig) (m : Nat) : EngineState :=
  (runDays cfg ((calendar cfg).take (m + 1)) (initState cfg)).1

/-- `Backtester.run` (lines 80-230): the date loop followed by the final-date
equity mark `last_dt = dates[-1]`, which raises `IndexError` on an empty
calendar; the raise is modelled by `none`. -/
def runBT (cfg : BTConfig) : Option (List (Nat × ℚ) × EngineState) :=
  let cal := calendar cfg
  let res := runDays cfg cal (initState cfg)
  match cal.getLast? with
  | none => none
  | some last => some (res.2 ++ [(last, markToMarket cfg res.1 last)], res.1)

/-! ### Round-trip trade reconstruction, metrics.py -/

/-- One normalised fill row (the DataFrame row built in `round_trip_trades`). -/
structure Row where
  date : Nat
  symbol : String
  side : String
  qty : Int
  price : ℚ
  commission : ℚ
deriving DecidableEq, Repr

/-- A reconstructed round trip, `Trade` from metrics.py. -/
structure Trade where
  symbol : String
  entry_date : Nat
  exit_date : Nat
  side : String
  qty : Int
  entry_amount : ℚ
  exit_amount : ℚ
  pnl : ℚ
  duration_days : Int
deriving DecidableEq, Repr

/-- Per-symbol accumulator state of `round_trip_trades`. -/
structure SymState where
  pos : Int
  entry_side : Option String
  entry_date : Option Nat
  entry_amt : ℚ
  exit_amt : ℚ
  qty_total : Int
deriving DecidableEq, Repr

/-- Fresh accumulator (the dict default in `state.get`). -/
def freshSym : SymState := ⟨0, none, none, 0, 0, 0⟩

/-- `add_long_entry`. -/
def addLongEntry (s : SymState) (dt : Nat) (px psc : ℚ) (q : Int) : SymState :=
  { s with
    entry_side := match s.entry_side with | none => some "LONG" | some x => some x
    entry_date := match s.entry_date with | none => some dt | some d => some d
    entry_amt := s.entry_amt + (q : ℚ) * (px + psc)
    qty_total := s.qty_total + q }

/-- `add_long_exit`. -/
def addLongExit (s : SymState) (px psc : ℚ) (q : Int) : SymState :=
  { s with exit_amt := s.exit_amt + (q : ℚ) * (px - psc) }

/-- `add_short_entry`. -/
def addShortEntry (s : SymState) (dt : Nat) (px psc : ℚ) (q : Int) : SymState :=
  { s with
    entry_side := match s.entry_side with | none => some "SHORT" | some x => some x
    entry_date := match s.entry_date with | none => some dt | some d => some d
    entry_amt := s.entry_amt + (q : ℚ) * (px - psc)
    qty_total := s.qty_total + q }

/-- `add_short_exit`. -/
def addShortExit (s : SymState) (px psc : ℚ) (q : Int) : SymState :=
  { s with exit_amt := s.exit_amt + (q : ℚ) * (px + psc) }

/-- `close_trade`: emit a `Trade` when an open trade's position has returned
to exactly zero, then reset the accumulator. -/
def closeTrade (sym : String) (dt : Nat) (s : SymState) : SymState × List Trade :=
  match s.entry_side with
  | none => (s, [])
  | some side0 =>
      if s.pos ≠ 0 then (s, [])
      else
        let entry_amt := s.entry_amt
        let exit_amt := s.exit_amt
        let pnl := if side0 = "LONG" then exit_amt - entry_amt else entry_amt - exit_amt
        let ed := s.entry_date.getD 0
        let duration : Int := max 1 ((dt : Int) - (ed : Int))
        let reset : SymState :=
          { s with
            entry_side := none
            entry_date := none
            entry_amt := 0
            exit_amt := 0
            qty_total := 0 }
        let t : Trade :=
          { symbol := sym, entry_date := ed, exit_date := dt, side := side0,
            qty := s.qty_total, entry_amount := entry_amt, exit_amount := exit_amt,
            pnl := pnl, duration_days := duration }
        (reset, [t])

/-- Processing of one fill row against its symbol's accumulator
(the BUY/SELL branches of `round_trip_trades`, metrics.py lines 139-175). -/
def processRow (s0 : SymState) (r : Row) : SymState × List Trade :=
  let psc := if 0 < r.qty then r.commission / (r.qty : ℚ) else 0
  if r.side = "BUY" then
    if 0 ≤ s0.pos then
      let s1 := addLongEntry s0 r.date r.price psc r.qty
      ({ s1 with pos := s1.pos + r.qty }, [])
    else
      let cover := min r.qty (-s0.pos)
      let step1 : SymState × List Trade :=
        if 0 < cover then
          let s1 := addShortExit s0 r.price psc cover
          let s1b := { s1 with pos := s1.pos + cover }
          if s1b.pos = 0 then closeTrade r.symbol r.date s1b else (s1b, [])
        else (s0, [])
      let rem := r.qty - cover
      if 0 < rem then
        let s3 := addLongEntry step1.1 r.date r.price psc rem
        ({ s3 with pos := s3.pos + rem }, step1.2)
      else step1
  else
    if s0.pos ≤ 0 then
      let s1 := addShortEntry s0 r.date r.price psc r.qty
      ({ s1 with pos := s1.pos - r.qty }, [])
    else
      let exitq := min r.qty s0.pos
      let step1 : SymState × List Trade :=
        if 0 < exitq then
          let s1 := addLongExit s0 r.price psc exitq
          let s1b := { s1 with pos := s1.pos - exitq }
          if s1b.pos = 0 then closeTrade r.symbol r.date s1b else (s1b, [])
        else (s0, [])
      let rem := r.qty - exitq
      if 0 < rem then
        let s3 := addShortEntry step1.1 r.date r.price psc rem
        ({ s3 with pos := s3.pos - rem }, step1.2)
      else step1

/-- One step of the row loop: look up the symbol's accumulator, process the
row, store the accumulator back, and append the emitted trades. -/
def rtStep (acc : (String → SymState) × List Trade) (r : Row) : (String → SymState) × List Trade :=
  let res := processRow (acc.1 r.symbol) r
  (fupd acc.1 r.symbol res.1, acc.2 ++ res.2)

/-- Conversion of a `Fill` to a normalised row (`str(f.side).upper()` etc.). -/
def toRow (f : Fill) : Row :=
  { date := f.date, symbol := f.symbol, side := String.map Char.toUpper f.side,
    qty := f.qty, price := f.price, commission := f.commission }

/-- Ordering used by `sort_values(["symbol", "date"])`. -/
def rowLE (a b : Row) : Bool :=
  a.symbol < b.symbol || (a.symbol = b.symbol && a.date ≤ b.date)

/-- Insertion step of the row sort. -/
def insertRow (r : Row) : List Row → List Row
  | [] => [r]
  | x :: xs => if rowLE r x then r :: x :: xs else x :: insertRow r xs

/-- Stable sort of the fill rows by (symbol, date). -/
def sortRows (l : List Row) : List Row :=
  l.foldr insertRow []

/-- Whole pass of `round_trip_trades` over the sorted rows: final per-symbol
accumulators plus the emitted trades in emission order. -/
def rtProcess (fills : List Fill) : (String → SymState) × List Trade :=
  (sortRows (fills.map toRow)).foldl rtStep (fun _ => freshSym, [])

/-- `round_trip_trades` (metrics.py lines 58-180). -/
def roundTripTrades (fills : List Fill) : List Trade :=
  if fills.isEmpty then [] else (rtProcess fills).2

/-- Per-symbol restriction of the row loop (used to reason about one
symbol's trades independently of the interleaving). -/
def perSymFold : List Row → SymState → SymState × List Trade
  | [], s => (s, [])
  | r :: rs, s =>
      let res1 := processRow s r
      let res2 := perSymFold rs res1.1
      (res2.1, res1.2 ++ res2.2)

/-- Position after one row, mirroring the position arithmetic of
`round_trip_trades` only. -/
def rowPos (pos : Int) (r : Row) : Int :=
  if r.side = "BUY" then
    if 0 ≤ pos then pos + r.qty
    else
      let cover := min r.qty (-pos)
      let p1 := if 0 < cover then pos + cover else pos
      let rem := r.qty - cover
      if 0 < rem then p1 + rem else p1
  else
    if pos ≤ 0 then pos - r.qty
    else
      let exitq := min r.qty pos
      let p1 := if 0 < exitq then pos - exitq else pos
      let rem := r.qty - exitq
      if 0 < rem then p1 - rem else p1

/-- Does this row drive the running position through exactly zero (the
condition under which `close_trade` is reached)? -/
def rowTouch (pos : Int) (r : Row) : Bool :=
  if r.side = "BUY" then
    if 0 ≤ pos then false
    else
      let cover := min r.qty (-pos)
      decide (0 < cover) && decide (pos + cover = 0)
  else
    if pos ≤ 0 then false
    else
      let exitq := min r.qty pos
      decide (0 < exitq) && decide (pos - exitq = 0)

/-- The running position never returns to exactly zero along the rows. -/
def noZeroTouch : List Row → Int → Bool
  | [], _ => true
  | r :: rs, pos => !rowTouch pos r && noZeroTouch rs (rowPos pos r)

/-! ### Equity-curve metrics, metrics.py -/

/-- Value domain of one entry of the float returns series: dividing by a
zero equity value gives a signed infinity (x/0, x ≠ 0) or `NaN` (0/0);
all other entries are finite. -/
inductive FVal where
  | nan : FVal
  | pinf : FVal
  | ninf : FVal
  | fin : ℚ → FVal
deriving DecidableEq, Repr

/-- One entry of `equity.pct_change()`: current/previous − 1, with the IEEE
outcomes when the previous value is zero. -/
def pctEntry (a b : ℚ) : FVal :=
  if a = 0 then
    if b = 0 then FVal.nan
    else if 0 < b then FVal.pinf
    else FVal.ninf
  else FVal.fin (b / a - 1)

/-- `equity.pct_change()` on a list of equity points (the leading `NaN` of
pandas is represented by simply pairing adjacent points). -/
def pctChange (e : List ℚ) : List FVal :=
  (e.zip e.tail).map (fun p => pctEntry p.1 p.2)

/-- `Series.dropna()`: removes the `NaN` rows; infinities stay. -/
def dropna (l : List FVal) : List FVal :=
  l.filter (fun v => v ≠ FVal.nan)

/-- Is the entry a finite float? -/
def isFin : FVal → Bool
  | FVal.fin _ => true
  | _ => false

/-- The finite values of the series. -/
def finVals (l : List FVal) : List ℚ :=
  l.filterMap (fun v => match v with | FVal.fin q => some q | _ => none)

/-- Mean of a list (`Series.mean`). -/
def listMean (l : List ℚ) : ℚ :=
  l.sum / (l.length : ℚ)

/-- Sample variance with `ddof=1` (the square of `Series.std(ddof=1)`);
the `ℚ`-value is meaningful only for lists of length at least 2. -/
def sampleVar (l : List ℚ) : ℚ :=
  (l.map (fun x => (x - listMean l) ^ 2)).sum / ((l.length : ℚ) - 1)

/-- Daily excess returns `rets - rf / TRADING_DAYS` of an all-finite
post-`dropna` returns series. -/
def excessOf (e : List ℚ) (rf : ℚ) : List ℚ :=
  (finVals (dropna (pctChange e))).map (fun r => r - rf / 252)

/-- `sharpe` (metrics.py lines 26-35) over the post-`dropna` returns
series.  `none` models a float `NaN` result: an infinite return (a zero
equity value followed by a non-zero one) poisons the mean/deviation
pipeline of `std(ddof=1)` into `NaN`, a single surviving return makes the
`ddof=1` divisor zero and hence `std` `NaN`, and `mu / sd` propagates the
`NaN` past the `sd == 0` check. -/
noncomputable def sharpe (e : List ℚ) (rf : ℚ) : Option ℝ :=
  let rets := dropna (pctChange e)
  if rets.length = 0 then some 0
  else if ¬ rets.all isFin then none
  else
    let excess := excessOf e rf
    let mu := listMean excess
    if excess.length < 2 then none
    else if sampleVar excess = 0 then some 0
    else some ((mu : ℝ) / Real.sqrt ((sampleVar excess : ℚ) : ℝ) * Real.sqrt 252)

/-! ### Portfolio ledger, portfolio.py -/

/-- Per-symbol position with cost basis, `Position` from portfolio.py. -/
structure Position where
  symbol : String
  qty : Int
  avg_cost : ℚ
deriving DecidableEq, Repr

/-- Dict lookup on the association list modelling `self.positions`. -/
def plookup (sym : String) : List (String × Position) → Option Position
  | [] => none
  | e :: t => if e.1 = sym then some e.2 else plookup sym t

/-- `positions.setdefault(symbol, Position(symbol))`. -/
def setdefault (ps : List (String × Position)) (sym : String) : List (String × Position) :=
  if (plookup sym ps).isSome then ps else ps ++ [(sym, ⟨sym, 0, 0⟩)]

/-- In-place mutation of the symbol's `Position` object. -/
def updatePos (ps : List (String × Position)) (sym : String) (v : Position) :
    List (String × Position) :=
  ps.map (fun e => if e.1 = sym then (e.1, v) else e)

/-- The ledger, `Portfolio` from portfolio.py. -/
structure Portfolio where
  cash : ℚ
  positions : List (String × Position)
  fills : List Fill

/-- `Portfolio.market_value`: positions valued under a price snapshot
(`prices.get(sym, 0.0)` is modelled by a total function). -/
def Portfolio.market_value (p : Portfolio) (prices : String → ℚ) : ℚ :=
  (p.positions.map (fun e => (e.2.qty : ℚ) * prices e.1)).sum

/-- `Portfolio.equity`. -/
def Portfolio.equity (p : Portfolio) (prices : String → ℚ) : ℚ :=
  p.cash + p.market_value prices

/-- `Portfolio._apply_fill` (portfolio.py lines 39-52). -/
def Portfolio.applyFill (p : Portfolio) (date : Nat) (symbol side : String) (qty : Int)
    (price commission : ℚ) (prices_now : String → ℚ) : Portfolio :=
  let ps := setdefault p.positions symbol
  let pos := (plookup symbol ps).getD ⟨symbol, 0, 0⟩
  let notional := (qty : ℚ) * price
  if side = "BUY" then
    let cash2 := p.cash - (notional + commission)
    let new_qty := pos.qty + qty
    let avg2 := if new_qty ≠ 0 then (pos.avg_cost * (pos.qty : ℚ) + notional) / (new_qty : ℚ) else 0
    let p2 : Portfolio :=
      { cash := cash2, positions := updatePos ps symbol ⟨symbol, new_qty, avg2⟩,
        fills := p.fills }
    let f : Fill :=
      { date := date, symbol := symbol, side := side, qty := qty, price := price,
        commission := commission, cash_after := cash2, equity_after := p2.equity prices_now }
    { p2 with fills := p2.fills ++ [f] }
  else
    let cash2 := p.cash + (notional - commission)
    let new_qty := pos.qty - qty
    let avg2 := if new_qty = 0 then 0 else pos.avg_cost
    let p2 : Portfolio :=
      { cash := cash2, positions := updatePos ps symbol ⟨symbol, new_qty, avg2⟩,
        fills := p.fills }
    let f : Fill :=
      { date := date, symbol := symbol, side := side, qty := qty, price := price,
        commission := commission, cash_after := cash2, equity_after := p2.equity prices_now }
    { p2 with fills := p2.fills ++ [f] }

/-! ### Concrete scenario inputs used by counterexamples and witnesses -/

/-- Bar data with a negative Open on the exit date. -/
def cexMd : MarketData :=
  { openPx := fun d => if d = 2 then -10 else 10, closePx := fun _ => 1, index := [0, 1, 2] }

/-- A run that goes long on date 0 and exits on date 1 at a negative Open:
the SELL exit drives cash below zero. -/
def cexCfg : BTConfig :=
  { syms := ["A"], data := fun _ => cexMd,
    signal := fun _ d => if d = 0 then 1 else 0,
    initial_capital := 100, costs := { commission_rate := 0, slippage_rate := 0 },
    allow_shorts := false }

/-- Bar data whose Open explodes on the cover date. -/
def bugMd : MarketData :=
  { openPx := fun d => if d = 2 then 1000 else 10, closePx := fun _ => 1, index := [0, 1, 2] }

/-- A run that opens a short on date 0 and on date 1 tries to cover at a
price it cannot afford: the affordability cap reduces the exit quantity to
zero, and the engine still appends a `Fill` with `qty = 0`. -/
def bugCfg : BTConfig :=
  { syms := ["A"], data := fun _ => bugMd,
    signal := fun _ d => if d = 0 then -1 else 0,
    initial_capital := 100, costs := { commission_rate := 0, slippage_rate := 0 },
    allow_shorts := true }

/-- Bar data with constant positive prices. -/
def posMd : MarketData :=
  { openPx := fun _ => 10, closePx := fun _ => 10, index := [0, 1, 2] }

/-- A well-behaved run (positive prices, zero costs): long on date 0, flat
on date 1. -/
def posCfg : BTConfig :=
  { syms := ["A"], data := fun _ => posMd,
    signal := fun _ d => if d = 0 then 1 else 0,
    initial_capital := 100, costs := { commission_rate := 0, slippage_rate := 0 },
    allow_shorts := false }

/-- Two symbols with disjoint bar date indexes: the common calendar is
empty. -/
def disjointCfg : BTConfig :=
  { syms := ["A", "B"],
    data := fun s =>
      if s = "A" then { openPx := fun _ => 1, closePx := fun _ => 1, index := [0] }
      else { openPx := fun _ => 1, closePx := fun _ => 1, index := [1] },
    signal := fun _ _ => 0,
    initial_capital := 100, costs := { commission_rate := 0, slippage_rate := 0 },
    allow_shorts := false }

/-- The two fills of the flip scenario: BUY 100 @ 10 then SELL 150 @ 12,
zero commission, one symbol. -/
def flipFill1 : Fill :=
  { date := 0, symbol := "A", side := "BUY", qty := 100, price := 10, commission := 0,
    cash_after := 0, equity_after := 0 }

/-- Second fill of the flip scenario. -/
def flipFill2 : Fill :=
  { date := 1, symbol := "A", side := "SELL", qty := 150, price := 12, commission := 0,
    cash_after := 0, equity_after := 0 }

/-! ### Structural lemmas about the engine legs -/

theorem execPrice_buy (c : Costs) (px : ℚ) : execPrice c "BUY" px = px * (1 + c.slippage_rate) := by
  simp [execPrice]

theorem execPrice_sell (c : Costs) (px : ℚ) : execPrice c "SELL" px = px * (1 - c.slippage_rate) := by
  simp [execPrice]

@[simp]
theorem appendFill_cash (cfg : BTConfig) (st : EngineState) (dt nd : Nat) (sym side : String)
    (qty : Int) (price comm : ℚ) :
    (appendFill cfg st dt nd sym side qty price comm).cash = st.cash := rfl

@[simp]
theorem appendFill_positions (cfg : BTConfig) (st : EngineState) (dt nd : Nat) (sym side : String)
    (qty : Int) (price comm : ℚ) :
    (appendFill cfg st dt nd sym side qty price comm).positions = st.positions := rfl

@[simp]
theorem appendFill_prev (cfg : BTConfig) (st : EngineState) (dt nd : Nat) (sym side : String)
    (qty : Int) (price comm : ℚ) :
    (appendFill cfg st dt nd sym side qty price comm).prev_target = st.prev_target := rfl

@[simp]
theorem appendFill_fills (cfg : BTConfig) (st : EngineState) (dt nd : Nat) (sym side : String)
    (qty : Int) (price comm : ℚ) :
    (appendFill cfg st dt nd sym side qty price comm).fills =
      st.fills ++ [mkFill cfg st dt nd sym side qty price comm] := rfl

theorem exitLeg_prev (cfg : BTConfig) (dt nd : Nat) (st : EngineState) (sym : String) (opx : ℚ) :
    (exitLeg cfg dt nd st sym opx).prev_target = st.prev_target := by
  simp only [exitLeg]
  split <;> rfl

theorem exitLeg_positions_ne (cfg : BTConfig) (dt nd : Nat) (st : EngineState) (sym : String)
    (opx : ℚ) (s2 : String) (h : s2 ≠ sym) :
    (exitLeg cfg dt nd st sym opx).positions s2 = st.positions s2 := by
  simp only [exitLeg]
  split <;> simp [fupd, h]

theorem entryLeg_prev (cfg : BTConfig) (dt nd : Nat) (st : EngineState) (sym : String)
    (target : Int) (opx : ℚ) :
    (entryLeg cfg dt nd st sym target opx).prev_target = st.prev_target := by
  simp only [entryLeg]
  split <;> split <;> first | rfl | (split <;> rfl)

theorem entryLeg_positions_ne (cfg : BTConfig) (dt nd : Nat) (st : EngineState) (sym : String)
    (target : Int) (opx : ℚ) (s2 : String) (h : s2 ≠ sym) :
    (entryLeg cfg dt nd st sym target opx).positions s2 = st.positions s2 := by
  simp only [entryLeg]
  split
  · split
    · rfl
    · split
      · rfl
      · simp [fupd, h]
  · split
    · rfl
    · simp [fupd, h]

theorem exitLeg_fills (cfg : BTConfig) (dt nd : Nat) (st : EngineState) (sym : String) (opx : ℚ) :
    ∃ f : Fill, (exitLeg cfg dt nd st sym opx).fills = st.fills ++ [f] ∧
      f.date = nd ∧ f.symbol = sym ∧
      ((f.side = "SELL" ∧ f.price = execPrice cfg.costs "SELL" opx) ∨
       (f.side = "BUY" ∧ f.price = execPrice cfg.costs "BUY" opx)) ∧
      f.cash_after = (exitLeg cfg dt nd st sym opx).cash := by
  simp only [exitLeg]
  split
  · exact ⟨_, rfl, rfl, rfl, Or.inl ⟨rfl, rfl⟩, rfl⟩
  · exact ⟨_, rfl, rfl, rfl, Or.inr ⟨rfl, rfl⟩, rfl⟩

theorem entryLeg_fills (cfg : BTConfig) (dt nd : Nat) (st : EngineState) (sym : String)
    (target : Int) (opx : ℚ) :
    (entryLeg cfg dt nd st sym target opx).fills = st.fills ∨
    ∃ f : Fill, (entryLeg cfg dt nd st sym target opx).fills = st.fills ++ [f] ∧
      f.date = nd ∧ f.symbol = sym ∧
      ((f.side = "SELL" ∧ f.price = execPrice cfg.costs "SELL" opx) ∨
       (f.side = "BUY" ∧ f.price = execPrice cfg.costs "BUY" opx)) ∧
      f.cash_after = (entryLeg cfg dt nd st sym target opx).cash := by
  simp only [entryLeg]
  split
  · split
    · exact Or.inl rfl
    · split
      · exact Or.inl rfl
      · exact Or.inr ⟨_, rfl, rfl, rfl, Or.inr ⟨rfl, rfl⟩, rfl⟩
  · split
    · exact Or.inl rfl
    · exact Or.inr ⟨_, rfl, rfl, rfl, Or.inl ⟨rfl, rfl⟩, rfl⟩

/-! ### Solvency -/

/-- Solvency invariant: cash is non-negative and so is the recorded
`cash_after` of every fill so far. -/
def Solvent (st : EngineState) : Prop :=
  0 ≤ st.cash ∧ ∀ f ∈ st.fills, 0 ≤ f.cash_after

theorem solvent_prev_update (st : EngineState) (p : String → Int) :
    Solvent { st with prev_target := p } ↔ Solvent st := Iff.rfl

/-- Core affordability-cap arithmetic: a BUY is capped at
`max 0 ⌊cash / (price * (1 + c))⌋` shares, so it never spends more than the
available cash. -/
theorem buy_spend_le (cash price c : ℚ) (q : Int) (hcash : 0 ≤ cash) (hp : 0 < price)
    (hc : 0 ≤ c) (hq : 0 ≤ q) (hle : q ≤ max 0 ⌊cash / (price * (1 + c))⌋) :
    0 ≤ cash - ((q : ℚ) * price + |(q : ℚ) * price| * c) := by
  have hpst : 0 < price * (1 + c) := by nlinarith
  have hfl : 0 ≤ ⌊cash / (price * (1 + c))⌋ :=
    Int.floor_nonneg.mpr (div_nonneg hcash hpst.le)
  rw [max_eq_right hfl] at hle
  have h1 : ((q : ℤ) : ℚ) ≤ ((⌊cash / (price * (1 + c))⌋ : ℤ) : ℚ) := Int.cast_le.mpr hle
  have h2 : (q : ℚ) ≤ cash / (price * (1 + c)) := le_trans h1 (Int.floor_le _)
  have h3 : (q : ℚ) * (price * (1 + c)) ≤ cash := (le_div_iff₀ hpst).mp h2
  have hq' : (0 : ℚ) ≤ (q : ℚ) := by exact_mod_cast hq
  have habs : |(q : ℚ) * price| = (q : ℚ) * price := abs_of_nonneg (by positivity)
  rw [habs]
  nlinarith

theorem exitLeg_cash_nonneg (cfg : BTConfig) (dt nd : Nat) (st : EngineState) (sym : String)
    (opx : ℚ) (hcash : 0 ≤ st.cash)
    (hc0 : 0 ≤ cfg.costs.commission_rate) (hc1 : cfg.costs.commission_rate ≤ 1)
    (hs0 : 0 ≤ cfg.costs.slippage_rate) (hs1 : cfg.costs.slippage_rate ≤ 1)
    (hopx : 0 < opx) :
    0 ≤ (exitLeg cfg dt nd st sym opx).cash := by
  simp only [exitLeg]
  split
  · -- SELL side: proceeds are non-negative
    rename_i hcur
    simp only [appendFill_cash]
    rw [execPrice_sell]
    have hqty : (0 : ℚ) ≤ ((|st.positions sym| : ℤ) : ℚ) := by positivity
    have hpx : 0 ≤ opx * (1 - cfg.costs.slippage_rate) := by nlinarith
    have hn : 0 ≤ ((|st.positions sym| : ℤ) : ℚ) * (opx * (1 - cfg.costs.slippage_rate)) := by
      positivity
    rw [abs_of_nonneg hn]
    nlinarith
  · -- BUY side: capped by affordability
    rename_i hcur
    simp only [appendFill_cash]
    rw [execPrice_buy]
    have hpx : 0 < opx * (1 + cfg.costs.slippage_rate) := by nlinarith
    have hq : (0 : ℤ) ≤ min |st.positions sym|
        (max 0 ⌊st.cash / (opx * (1 + cfg.costs.slippage_rate) * (1 + cfg.costs.commission_rate))⌋) :=
      le_min (abs_nonneg _) (le_max_left _ _)
    have := buy_spend_le st.cash (opx * (1 + cfg.costs.slippage_rate)) cfg.costs.commission_rate
      (min |st.positions sym|
        (max 0 ⌊st.cash / (opx * (1 + cfg.costs.slippage_rate) * (1 + cfg.costs.commission_rate))⌋))
      hcash hpx hc0 hq (min_le_right _ _)
    linarith

theorem entryLeg_cash_nonneg (cfg : BTConfig) (dt nd : Nat) (st : EngineState) (sym : String)
    (target : Int) (opx : ℚ) (hcash : 0 ≤ st.cash)
    (hc0 : 0 ≤ cfg.costs.commission_rate) (hc1 : cfg.costs.commission_rate ≤ 1)
    (hs0 : 0 ≤ cfg.costs.slippage_rate) (hs1 : cfg.costs.slippage_rate ≤ 1)
    (hopx : 0 < opx) :
    0 ≤ (entryLeg cfg dt nd st sym target opx).cash := by
  simp only [entryLeg]
  split
  · -- BUY entry
    split
    · exact hcash
    · split
      · exact hcash
      · rename_i hs0' hsz
        simp only [appendFill_cash]
        rw [execPrice_buy] at hsz ⊢
        have hpx : 0 < opx * (1 + cfg.costs.slippage_rate) := by nlinarith
        have hq : (0 : ℤ) ≤ min ⌊perSymbolBudget cfg / (opx * (1 + cfg.costs.slippage_rate))⌋
            (max 0 ⌊st.cash / (opx * (1 + cfg.costs.slippage_rate) * (1 + cfg.costs.commission_rate))⌋) := by
          rw [execPrice_buy] at hs0'
          exact le_min (by omega) (le_max_left _ _)
        have := buy_spend_le st.cash (opx * (1 + cfg.costs.slippage_rate))
          cfg.costs.commission_rate _ hcash hpx hc0 hq (min_le_right _ _)
        linarith
  · -- SELL entry
    split
    · exact hcash
    · rename_i hs0'
      simp only [appendFill_cash]
      rw [execPrice_sell] at hs0' ⊢
      have hpx : 0 ≤ opx * (1 - cfg.costs.slippage_rate) := by nlinarith
      have hsh : (0 : ℚ) ≤ ((⌊perSymbolBudget cfg / (opx * (1 - cfg.costs.slippage_rate))⌋ : ℤ) : ℚ) := by
        have : (0 : ℤ) ≤ ⌊perSymbolBudget cfg / (opx * (1 - cfg.costs.slippage_rate))⌋ := by omega
        exact_mod_cast this
      have hn : 0 ≤ ((⌊perSymbolBudget cfg / (opx * (1 - cfg.costs.slippage_rate))⌋ : ℤ) : ℚ) *
          (opx * (1 - cfg.costs.slippage_rate)) := by positivity
      rw [abs_of_nonneg hn]
      nlinarith

theorem exitLeg_solvent (cfg : BTConfig) (dt nd : Nat) (st : EngineState) (sym : String)
    (opx : ℚ)
    (hc0 : 0 ≤ cfg.costs.commission_rate) (hc1 : cfg.costs.commission_rate ≤ 1)
    (hs0 : 0 ≤ cfg.costs.slippage_rate) (hs1 : cfg.costs.slippage_rate ≤ 1)
    (hopx : 0 < opx) (h : Solvent st) :
    Solvent (exitLeg cfg dt nd st sym opx) := by
  obtain ⟨hcash, hfills⟩ := h
  have hnew : 0 ≤ (exitLeg cfg dt nd st sym opx).cash :=
    exitLeg_cash_nonneg cfg dt nd st sym opx hcash hc0 hc1 hs0 hs1 hopx
  obtain ⟨f, hf, -, -, -, hfc⟩ := exitLeg_fills cfg dt nd st sym opx
  refine ⟨hnew, ?_⟩
  intro g hg
  rw [hf] at hg
  rcases List.mem_append.mp hg with h1 | h2
  · exact hfills g h1
  · rw [List.mem_singleton.mp h2, hfc]
    exact hnew

theorem entryLeg_solvent (cfg : BTConfig) (dt nd : Nat) (st : EngineState) (sym : String)
    (target : Int) (opx : ℚ)
    (hc0 : 0 ≤ cfg.costs.commission_rate) (hc1 : cfg.costs.commission_rate ≤ 1)
    (hs0 : 0 ≤ cfg.costs.slippage_rate) (hs1 : cfg.costs.slippage_rate ≤ 1)
    (hopx : 0 < opx) (h : Solvent st) :
    Solvent (entryLeg cfg dt nd st sym target opx) := by
  obtain ⟨hcash, hfills⟩ := h
  have hnew : 0 ≤ (entryLeg cfg dt nd st sym target opx).cash :=
    entryLeg_cash_nonneg cfg dt nd st sym target opx hcash hc0 hc1 hs0 hs1 hopx
  rcases entryLeg_fills cfg dt nd st sym target opx with hsame | ⟨f, hf, -, -, -, hfc⟩
  · exact ⟨hnew, by rw [hsame]; exact hfills⟩
  · refine ⟨hnew, ?_⟩
    intro g hg
    rw [hf] at hg
    rcases List.mem_append.mp hg with h1 | h2
    · exact hfills g h1
    · rw [List.mem_singleton.mp h2, hfc]
      exact hnew

theorem stepSym_solvent (cfg : BTConfig) (dt nd : Nat) (st : EngineState) (sym : String)
    (hc0 : 0 ≤ cfg.costs.commission_rate) (hc1 : cfg.costs.commission_rate ≤ 1)
    (hs0 : 0 ≤ cfg.costs.slippage_rate) (hs1 : cfg.costs.slippage_rate ≤ 1)
    (hopen : ∀ s d, 0 < (cfg.data s).openPx d)
    (h : Solvent st) : Solvent (stepSym cfg dt nd st sym) := by
  have hexit : ∀ st0, Solvent st0 →
      Solvent (exitLeg cfg dt nd st0 sym ((cfg.data sym).openPx nd)) := fun st0 h0 =>
    exitLeg_solvent cfg dt nd st0 sym _ hc0 hc1 hs0 hs1 (hopen sym nd) h0
  have hentry : ∀ st0 t, Solvent st0 →
      Solvent (entryLeg cfg dt nd st0 sym t ((cfg.data sym).openPx nd)) := fun st0 t h0 =>
    entryLeg_solvent cfg dt nd st0 sym t _ hc0 hc1 hs0 hs1 (hopen sym nd) h0
  simp only [stepSym]
  split
  · exact h
  · rw [solvent_prev_update]
    split
    · split
      · exact hentry _ _ (hexit _ h)
      · exact hexit _ h
    · split
      · split
        · exact hentry _ _ (hexit _ h)
        · exact hexit _ h
      · split
        · exact hentry _ _ h
        · exact h

theorem stepDay_solvent (cfg : BTConfig) (dt nd : Nat) (st : EngineState)
    (hc0 : 0 ≤ cfg.costs.commission_rate) (hc1 : cfg.costs.commission_rate ≤ 1)
    (hs0 : 0 ≤ cfg.costs.slippage_rate) (hs1 : cfg.costs.slippage_rate ≤ 1)
    (hopen : ∀ s d, 0 < (cfg.data s).openPx d)
    (h : Solvent st) : Solvent (stepDay cfg dt nd st) := by
  simp only [stepDay]
  suffices hgen : ∀ (l : List String) (st0 : EngineState), Solvent st0 →
      Solvent (l.foldl (stepSym cfg dt nd) st0) by
    exact hgen cfg.syms st h
  intro l
  induction l with
  | nil => intro st0 h0; exact h0
  | cons a t ih =>
      intro st0 h0
      exact ih _ (stepSym_solvent cfg dt nd st0 a hc0 hc1 hs0 hs1 hopen h0)

/-! ### Long-only invariants -/

theorem procTarget_no_shorts (cfg : BTConfig) (h : cfg.allow_shorts = false) (s : String)
    (dt : Nat) : procTarget cfg s dt = if cfg.signal s dt = 1 then 1 else 0 := by
  simp [procTarget, h]

theorem procTarget_cases (cfg : BTConfig) (h : cfg.allow_shorts = false) (s : String)
    (dt : Nat) : procTarget cfg s dt = 0 ∨ procTarget cfg s dt = 1 := by
  rw [procTarget_no_shorts cfg h]
  split
  · exact Or.inr rfl
  · exact Or.inl rfl

/-- In the SELL exit (current position strictly long), the engine sells the
whole position: the position lands on zero and the appended fill's quantity
is the previously held share count. -/
theorem exitLeg_sell_case (cfg : BTConfig) (dt nd : Nat) (st : EngineState) (sym : String)
    (opx : ℚ) (hcur : 0 < st.positions sym) :
    (exitLeg cfg dt nd st sym opx).positions sym = 0 ∧
    ∃ f : Fill, (exitLeg cfg dt nd st sym opx).fills = st.fills ++ [f] ∧
      f.side = "SELL" ∧ f.qty = st.positions sym := by
  simp only [exitLeg]
  rw [if_pos hcur]
  refine ⟨?_, _, rfl, rfl, abs_of_pos hcur⟩
  simp [fupd, abs_of_pos hcur]

theorem entryLeg_positions_nonneg (cfg : BTConfig) (dt nd : Nat) (st : EngineState)
    (sym : String) (target : Int) (opx : ℚ) (ht : 0 < target)
    (hnn : ∀ s, 0 ≤ st.positions s) :
    ∀ s, 0 ≤ (entryLeg cfg dt nd st sym target opx).positions s := by
  simp only [entryLeg]
  rw [if_pos ht]
  split
  · exact hnn
  · split
    · exact hnn
    · rename_i h0 _
      intro s
      by_cases hs : s = sym
      · subst hs
        simp only [appendFill_positions, fupd_same]
        exact le_min (by omega) (le_max_left _ _)
      · simp only [appendFill_positions, fupd_ne _ _ _ _ hs]
        exact hnn s

theorem entryLeg_buy_fills (cfg : BTConfig) (dt nd : Nat) (st : EngineState) (sym : String)
    (target : Int) (opx : ℚ) (ht : 0 < target) :
    (entryLeg cfg dt nd st sym target opx).fills = st.fills ∨
    ∃ f : Fill, (entryLeg cfg dt nd st sym target opx).fills = st.fills ++ [f] ∧
      f.side = "BUY" := by
  simp only [entryLeg]
  rw [if_pos ht]
  split
  · exact Or.inl rfl
  · split
    · exact Or.inl rfl
    · exact Or.inr ⟨_, rfl, rfl⟩

theorem runDays_solvent (cfg : BTConfig)
    (hc0 : 0 ≤ cfg.costs.commission_rate) (hc1 : cfg.costs.commission_rate ≤ 1)
    (hs0 : 0 ≤ cfg.costs.slippage_rate) (hs1 : cfg.costs.slippage_rate ≤ 1)
    (hopen : ∀ s d, 0 < (cfg.data s).openPx d) :
    ∀ (l : List Nat) (st : EngineState), Solvent st → Solvent (runDays cfg l st).1 := by
  intro l
  induction l with
  | nil => intro st h; exact h
  | cons dt rest ih =>
      intro st h
      cases rest with
      | nil => exact h
      | cons next rest2 =>
          simp only [runDays]
          exact ih _ (stepDay_solvent cfg dt next st hc0 hc1 hs0 hs1 hopen h)

/-! ### Case equations for `stepSym` -/

@[simp]
theorem positions_prev_update (st : EngineState) (p : String → Int) :
    ({ st with prev_target := p } : EngineState).positions = st.positions := rfl

@[simp]
theorem cash_prev_update (st : EngineState) (p : String → Int) :
    ({ st with prev_target := p } : EngineState).cash = st.cash := rfl

@[simp]
theorem fills_prev_update (st : EngineState) (p : String → Int) :
    ({ st with prev_target := p } : EngineState).fills = st.fills := rfl

@[simp]
theorem prev_prev_update (st : EngineState) (p : String → Int) :
    ({ st with prev_target := p } : EngineState).prev_target = p := rfl

theorem stepSym_eq_skip (cfg : BTConfig) (dt nd : Nat) (st : EngineState) (sym : String)
    (h : procTarget cfg sym dt = st.prev_target sym) :
    stepSym cfg dt nd st sym = st := by
  simp only [stepSym]
  rw [if_pos h]

theorem stepSym_eq_exit_flat (cfg : BTConfig) (dt nd : Nat) (st : EngineState) (sym : String)
    (h0 : procTarget cfg sym dt = 0) (hne : procTarget cfg sym dt ≠ st.prev_target sym)
    (hcur : st.positions sym = 0) :
    stepSym cfg dt nd st sym = { st with prev_target := fupd st.prev_target sym 0 } := by
  have hne' : (0 : ℤ) ≠ st.prev_target sym := h0 ▸ hne
  simp only [stepSym, h0]
  split_ifs <;> first | rfl | (exfalso; omega)

theorem stepSym_eq_exit_pos (cfg : BTConfig) (dt nd : Nat) (st : EngineState) (sym : String)
    (h0 : procTarget cfg sym dt = 0) (hne : procTarget cfg sym dt ≠ st.prev_target sym)
    (hcur : st.positions sym ≠ 0) :
    stepSym cfg dt nd st sym =
      { exitLeg cfg dt nd st sym ((cfg.data sym).openPx nd) with
        prev_target :=
          fupd (exitLeg cfg dt nd st sym ((cfg.data sym).openPx nd)).prev_target sym 0 } := by
  have hne' : (0 : ℤ) ≠ st.prev_target sym := h0 ▸ hne
  simp only [stepSym, h0]
  split_ifs <;> first | rfl | (exfalso; omega) | (exfalso; simp_all)

theorem stepSym_eq_entry (cfg : BTConfig) (dt nd : Nat) (st : EngineState) (sym : String)
    (h1 : procTarget cfg sym dt = 1) (hne : procTarget cfg sym dt ≠ st.prev_target sym)
    (hcur : st.positions sym = 0) :
    stepSym cfg dt nd st sym =
      { entryLeg cfg dt nd st sym 1 ((cfg.data sym).openPx nd) with
        prev_target :=
          fupd (entryLeg cfg dt nd st sym 1 ((cfg.data sym).openPx nd)).prev_target sym 1 } := by
  have hne' : (1 : ℤ) ≠ st.prev_target sym := h1 ▸ hne
  simp only [stepSym, h1]
  split_ifs <;> first | rfl | (exfalso; omega)

theorem stepSym_eq_noop_long (cfg : BTConfig) (dt nd : Nat) (st : EngineState) (sym : String)
    (h1 : procTarget cfg sym dt = 1) (hne : procTarget cfg sym dt ≠ st.prev_target sym)
    (hpos : 0 < st.positions sym) :
    stepSym cfg dt nd st sym = { st with prev_target := fupd st.prev_target sym 1 } := by
  have hne' : (1 : ℤ) ≠ st.prev_target sym := h1 ▸ hne
  simp only [stepSym, h1]
  split_ifs <;> first | rfl | (exfalso; omega)

theorem stepSym_nonneg (cfg : BTConfig) (dt nd : Nat) (st : EngineState) (sym : String)
    (hsh : cfg.allow_shorts = false) (hnn : ∀ s, 0 ≤ st.positions s) :
    ∀ s, 0 ≤ (stepSym cfg dt nd st sym).positions s := by
  by_cases hne : procTarget cfg sym dt = st.prev_target sym
  · rw [stepSym_eq_skip cfg dt nd st sym hne]; exact hnn
  · rcases procTarget_cases cfg hsh sym dt with h0 | h1
    · by_cases hcur : st.positions sym = 0
      · rw [stepSym_eq_exit_flat cfg dt nd st sym h0 hne hcur]
        simpa using hnn
      · rw [stepSym_eq_exit_pos cfg dt nd st sym h0 hne hcur]
        have hpos : 0 < st.positions sym := lt_of_le_of_ne (hnn sym) (Ne.symm hcur)
        intro s
        simp only [positions_prev_update]
        by_cases hs : s = sym
        · rw [hs, (exitLeg_sell_case cfg dt nd st sym _ hpos).1]
        · rw [exitLeg_positions_ne cfg dt nd st sym _ s hs]
          exact hnn s
    · by_cases hcur : st.positions sym = 0
      · rw [stepSym_eq_entry cfg dt nd st sym h1 hne hcur]
        intro s
        simp only [positions_prev_update]
        exact entryLeg_positions_nonneg cfg dt nd st sym 1 _ (by omega) hnn s
      · have hpos : 0 < st.positions sym := lt_of_le_of_ne (hnn sym) (Ne.symm hcur)
        rw [stepSym_eq_noop_long cfg dt nd st sym h1 hne hpos]
        simpa using hnn

/-- With shorts disabled, every newly appended SELL fill in a `stepSym`
liquidates the exact long position and leaves the symbol flat. -/
theorem stepSym_sell_fills (cfg : BTConfig) (dt nd : Nat) (st : EngineState) (sym : String)
    (hsh : cfg.allow_shorts = false) (hnn : ∀ s, 0 ≤ st.positions s) :
    ∀ f ∈ (stepSym cfg dt nd st sym).fills, f ∉ st.fills → f.side = "SELL" →
      f.qty = st.positions sym ∧ (stepSym cfg dt nd st sym).positions sym = 0 := by
  by_cases hne : procTarget cfg sym dt = st.prev_target sym
  · rw [stepSym_eq_skip cfg dt nd st sym hne]
    intro f hf hnotin _
    exact absurd hf hnotin
  · rcases procTarget_cases cfg hsh sym dt with h0 | h1
    · by_cases hcur : st.positions sym = 0
      · rw [stepSym_eq_exit_flat cfg dt nd st sym h0 hne hcur]
        intro f hf hnotin _
        exact absurd hf hnotin
      · rw [stepSym_eq_exit_pos cfg dt nd st sym h0 hne hcur]
        have hpos : 0 < st.positions sym := lt_of_le_of_ne (hnn sym) (Ne.symm hcur)
        obtain ⟨hzero, g, hg, hgside, hgqty⟩ := exitLeg_sell_case cfg dt nd st sym
          ((cfg.data sym).openPx nd) hpos
        intro f hf hnotin _
        simp only [fills_prev_update, positions_prev_update] at hf ⊢
        rw [hg] at hf
        rcases List.mem_append.mp hf with h1 | h2
        · exact absurd h1 hnotin
        · rw [List.mem_singleton.mp h2]
          exact ⟨hgqty, hzero⟩
    · by_cases hcur : st.positions sym = 0
      · rw [stepSym_eq_entry cfg dt nd st sym h1 hne hcur]
        intro f hf hnotin hside
        simp only [fills_prev_update] at hf
        rcases entryLeg_buy_fills cfg dt nd st sym 1 ((cfg.data sym).openPx nd) (by omega)
          with hsame | ⟨g, hg, hgside⟩
        · rw [hsame] at hf
          exact absurd hf hnotin
        · rw [hg] at hf
          rcases List.mem_append.mp hf with hmem | hmem
          · exact absurd hmem hnotin
          · rw [List.mem_singleton.mp hmem] at hside
            rw [hgside] at hside
            exact absurd hside (by decide)
      · have hpos : 0 < st.positions sym := lt_of_le_of_ne (hnn sym) (Ne.symm hcur)
        rw [stepSym_eq_noop_long cfg dt nd st sym h1 hne hpos]
        intro f hf hnotin _
        exact absurd hf hnotin

theorem stepDay_nonneg (cfg : BTConfig) (dt nd : Nat) (st : EngineState)
    (hsh : cfg.allow_shorts = false) (hnn : ∀ s, 0 ≤ st.positions s) :
    ∀ s, 0 ≤ (stepDay cfg dt nd st).positions s := by
  simp only [stepDay]
  suffices hgen : ∀ (l : List String) (st0 : EngineState), (∀ s, 0 ≤ st0.positions s) →
      ∀ s, 0 ≤ (l.foldl (stepSym cfg dt nd) st0).positions s by
    exact hgen cfg.syms st hnn
  intro l
  induction l with
  | nil => intro st0 h0; exact h0
  | cons a t ih =>
      intro st0 h0
      exact ih _ (stepSym_nonneg cfg dt nd st0 a hsh h0)

theorem runDays_nonneg (cfg : BTConfig) (hsh : cfg.allow_shorts = false) :
    ∀ (l : List Nat) (st : EngineState), (∀ s, 0 ≤ st.positions s) →
      ∀ s, 0 ≤ ((runDays cfg l st).1.positions s) := by
  intro l
  induction l with
  | nil => intro st h; exact h
  | cons dt rest ih =>
      intro st h
      cases rest with
      | nil => exact h
      | cons next rest2 =>
          simp only [runDays]
          exact ih _ (stepDay_nonneg cfg dt next st hsh h)

/-! ### Fill provenance: no-lookahead and churn suppression machinery -/

/-- The previous-target memory value the engine holds for symbol `s` just
before processing the calendar date at position `m` (initialised to 0). -/
def prevAt (cfg : BTConfig) (cal : List Nat) (s : String) (m : Nat) : Int :=
  if m = 0 then 0 else procTarget cfg s (cal.getD (m - 1) 0)

/-- Date, symbol, side and price discipline of a single fill relative to the
processed dates. -/
def sidePriceOK (cfg : BTConfig) (nd : Nat) (sym : String) (f : Fill) : Prop :=
  f.date = nd ∧ f.symbol = sym ∧
    ((f.side = "BUY" ∧ f.price = (cfg.data sym).openPx nd * (1 + cfg.costs.slippage_rate)) ∨
     (f.side = "SELL" ∧ f.price = (cfg.data sym).openPx nd * (1 - cfg.costs.slippage_rate)))

/-- Specification of every fill the engine can record: it is dated at the
calendar date one step after a decision date on which the processed target
changed, and priced at that date's Open adjusted for slippage. -/
def fillSpec (cfg : BTConfig) (cal : List Nat) (f : Fill) : Prop :=
  ∃ k, k + 1 < cal.length ∧ f.date = cal.getD (k + 1) 0 ∧
    procTarget cfg f.symbol (cal.getD k 0) ≠ prevAt cfg cal f.symbol k ∧
    ((f.side = "BUY" ∧ f.price = (cfg.data f.symbol).openPx f.date * (1 + cfg.costs.slippage_rate)) ∨
     (f.side = "SELL" ∧ f.price = (cfg.data f.symbol).openPx f.date * (1 - cfg.costs.slippage_rate)))

theorem stepSym_prev_eq (cfg : BTConfig) (dt nd : Nat) (st : EngineState) (sym : String) :
    (stepSym cfg dt nd st sym).prev_target =
      if procTarget cfg sym dt = st.prev_target sym then st.prev_target
      else fupd st.prev_target sym (procTarget cfg sym dt) := by
  simp only [stepSym]
  split
  · rfl
  · simp only [prev_prev_update]
    repeat' split
    all_goals simp only [entryLeg_prev, exitLeg_prev]

theorem stepSym_prev_pt (cfg : BTConfig) (dt nd : Nat) (st : EngineState) (sym s : String) :
    (stepSym cfg dt nd st sym).prev_target s =
      if s = sym then procTarget cfg sym dt else st.prev_target s := by
  rw [stepSym_prev_eq]
  by_cases heq : procTarget cfg sym dt = st.prev_target sym
  · rw [if_pos heq]
    by_cases hs : s = sym
    · rw [if_pos hs, hs, heq]
    · rw [if_neg hs]
  · rw [if_neg heq]
    by_cases hs : s = sym
    · rw [if_pos hs, hs, fupd_same]
    · rw [if_neg hs, fupd_ne _ _ _ _ hs]

theorem fills_append_chain {st st1 st2 : EngineState} {P : Fill → Prop}
    (h1 : st1.fills = st.fills ∨ ∃ f, st1.fills = st.fills ++ [f] ∧ P f)
    (h2 : st2.fills = st1.fills ∨ ∃ f, st2.fills = st1.fills ++ [f] ∧ P f) :
    ∀ f ∈ st2.fills, f ∈ st.fills ∨ P f := by
  intro f hf
  rcases h2 with h2 | ⟨g2, hg2, hP2⟩
  · rw [h2] at hf
    rcases h1 with h1 | ⟨g1, hg1, hP1⟩
    · rw [h1] at hf
      exact Or.inl hf
    · rw [hg1] at hf
      rcases List.mem_append.mp hf with h | h
      · exact Or.inl h
      · rw [List.mem_singleton.mp h]
        exact Or.inr hP1
  · rw [hg2] at hf
    rcases List.mem_append.mp hf with h | h
    · rcases h1 with h1 | ⟨g1, hg1, hP1⟩
      · rw [h1] at h
        exact Or.inl h
      · rw [hg1] at h
        rcases List.mem_append.mp h with h3 | h3
        · exact Or.inl h3
        · rw [List.mem_singleton.mp h3]
          exact Or.inr hP1
    · rw [List.mem_singleton.mp h]
      exact Or.inr hP2

theorem exitLeg_fills_P (cfg : BTConfig) (dt nd : Nat) (st : EngineState) (sym : String) :
    (exitLeg cfg dt nd st sym ((cfg.data sym).openPx nd)).fills = st.fills ∨
    ∃ f, (exitLeg cfg dt nd st sym ((cfg.data sym).openPx nd)).fills = st.fills ++ [f] ∧
      sidePriceOK cfg nd sym f := by
  obtain ⟨f, hf, hd, hs, hside, -⟩ := exitLeg_fills cfg dt nd st sym ((cfg.data sym).openPx nd)
  refine Or.inr ⟨f, hf, hd, hs, ?_⟩
  rcases hside with ⟨h1, h2⟩ | ⟨h1, h2⟩
  · exact Or.inr ⟨h1, by rw [h2, execPrice_sell]⟩
  · exact Or.inl ⟨h1, by rw [h2, execPrice_buy]⟩

theorem entryLeg_fills_P (cfg : BTConfig) (dt nd : Nat) (st : EngineState) (sym : String)
    (target : Int) :
    (entryLeg cfg dt nd st sym target ((cfg.data sym).openPx nd)).fills = st.fills ∨
    ∃ f, (entryLeg cfg dt nd st sym target ((cfg.data sym).openPx nd)).fills = st.fills ++ [f] ∧
      sidePriceOK cfg nd sym f := by
  rcases entryLeg_fills cfg dt nd st sym target ((cfg.data sym).openPx nd) with
    hsame | ⟨f, hf, hd, hs, hside, -⟩
  · exact Or.inl hsame
  · refine Or.inr ⟨f, hf, hd, hs, ?_⟩
    rcases hside with ⟨h1, h2⟩ | ⟨h1, h2⟩
    · exact Or.inr ⟨h1, by rw [h2, execPrice_sell]⟩
    · exact Or.inl ⟨h1, by rw [h2, execPrice_buy]⟩

theorem stepSym_fills (cfg : BTConfig) (dt nd : Nat) (st : EngineState) (sym : String) :
    ∀ f ∈ (stepSym cfg dt nd st sym).fills, f ∈ st.fills ∨
      (procTarget cfg sym dt ≠ st.prev_target sym ∧ sidePriceOK cfg nd sym f) := by
  simp only [stepSym]
  split
  · intro f hf
    exact Or.inl hf
  · rename_i hne
    simp only [fills_prev_update]
    repeat' split
    all_goals first
      | exact fun f hf => Or.inl hf
      | exact fun f hf =>
          (fills_append_chain (exitLeg_fills_P cfg dt nd st sym)
            (entryLeg_fills_P cfg dt nd _ sym _) f hf).imp id (fun h => ⟨hne, h⟩)
      | exact fun f hf =>
          (fills_append_chain (exitLeg_fills_P cfg dt nd st sym)
            (Or.inl rfl) f hf).imp id (fun h => ⟨hne, h⟩)
      | exact fun f hf =>
          (fills_append_chain (Or.inl rfl)
            (entryLeg_fills_P cfg dt nd st sym _) f hf).imp id (fun h => ⟨hne, h⟩)

theorem foldl_stepSym_prev (cfg : BTConfig) (dt nd : Nat) :
    ∀ (l : List String) (st : EngineState) (s : String),
      (l.foldl (stepSym cfg dt nd) st).prev_target s =
        if s ∈ l then procTarget cfg s dt else st.prev_target s := by
  intro l
  induction l with
  | nil => intro st s; simp
  | cons a t ih =>
      intro st s
      simp only [List.foldl_cons]
      rw [ih]
      by_cases hs : s ∈ t
      · rw [if_pos hs, if_pos (List.mem_cons_of_mem a hs)]
      · rw [if_neg hs, stepSym_prev_pt]
        by_cases ha : s = a
        · rw [if_pos ha, if_pos (by rw [ha]; exact List.mem_cons_self a t), ha]
        · rw [if_neg ha, if_neg (by simp [List.mem_cons, ha, hs])]

theorem foldl_stepSym_fills (cfg : BTConfig) (dt nd : Nat) (P0 : String → Int) :
    ∀ (l : List String) (st : EngineState),
      (∀ s, st.prev_target s = P0 s ∨ st.prev_target s = procTarget cfg s dt) →
      ∀ f ∈ (l.foldl (stepSym cfg dt nd) st).fills, f ∈ st.fills ∨
        (f.symbol ∈ l ∧ procTarget cfg f.symbol dt ≠ P0 f.symbol ∧
          sidePriceOK cfg nd f.symbol f) := by
  intro l
  induction l with
  | nil => intro st _ f hf; exact Or.inl hf
  | cons a t ih =>
      intro st hmix f hf
      simp only [List.foldl_cons] at hf
      have hmix2 : ∀ s, (stepSym cfg dt nd st a).prev_target s = P0 s ∨
          (stepSym cfg dt nd st a).prev_target s = procTarget cfg s dt := by
        intro s
        rw [stepSym_prev_pt]
        by_cases hsa : s = a
        · rw [if_pos hsa, hsa]
          exact Or.inr rfl
        · rw [if_neg hsa]
          exact hmix s
      rcases ih (stepSym cfg dt nd st a) hmix2 f hf with hmem | ⟨hmemt, hrest⟩
      · rcases stepSym_fills cfg dt nd st a f hmem with hmem2 | ⟨hchg, hsp⟩
        · exact Or.inl hmem2
        · have hsym : f.symbol = a := hsp.2.1
          have hP0 : procTarget cfg f.symbol dt ≠ P0 f.symbol := by
            rw [hsym]
            rcases hmix a with hm | hm
            · rw [← hm]
              exact hchg
            · exact absurd hm.symm hchg
          refine Or.inr ⟨by rw [hsym]; exact List.mem_cons_self a t, hP0, ?_⟩
          rw [hsym]
          exact hsp
      · exact Or.inr ⟨List.mem_cons_of_mem a hmemt, hrest⟩

theorem runDays_fills_master (cfg : BTConfig) (cal : List Nat) :
    ∀ (l : List Nat) (m : Nat) (st : EngineState),
      cal.drop m = l →
      (∀ s ∈ cfg.syms, st.prev_target s = prevAt cfg cal s m) →
      (∀ f ∈ st.fills, fillSpec cfg cal f) →
      ∀ f ∈ (runDays cfg l st).1.fills, fillSpec cfg cal f := by
  intro l
  induction l with
  | nil =>
      intro m st _ _ hfills f hf
      exact hfills f hf
  | cons dt rest ih =>
      intro m st hdrop hprev hfills
      cases rest with
      | nil =>
          intro f hf
          exact hfills f hf
      | cons next rest2 =>
          simp only [runDays]
          have hm : cal[m]? = some dt := by
            have := List.getElem?_drop cal m 0
            rw [hdrop] at this
            simpa using this.symm
          have hm1 : cal[m + 1]? = some next := by
            have := List.getElem?_drop cal m 1
            rw [hdrop] at this
            simpa using this.symm
          have hmlt : m < cal.length := by
            rcases List.getElem?_eq_some_iff.mp hm with ⟨h, -⟩
            exact h
          have hm1lt : m + 1 < cal.length := by
            rcases List.getElem?_eq_some_iff.mp hm1 with ⟨h, -⟩
            exact h
          have hgdm : cal.getD m 0 = dt := by
            rw [List.getD_eq_getElem?_getD, hm]
            rfl
          have hgdm1 : cal.getD (m + 1) 0 = next := by
            rw [List.getD_eq_getElem?_getD, hm1]
            rfl
          have hdrop2 : cal.drop (m + 1) = next :: rest2 := by
            have h1 : cal.drop (m + 1) = (cal.drop m).drop 1 := by
              rw [List.drop_drop]
            rw [h1, hdrop]
            rfl
          apply ih (m + 1) (stepDay cfg dt next st) hdrop2
          · intro s hsmem
            simp only [stepDay]
            rw [foldl_stepSym_prev cfg dt next cfg.syms st s, if_pos hsmem]
            simp only [prevAt, Nat.add_sub_cancel, hgdm]
            rw [if_neg (by omega)]
          · intro f hf
            rcases foldl_stepSym_fills cfg dt next st.prev_target cfg.syms st
                (fun s => Or.inl rfl) f hf with hmem | ⟨hsymmem, hchg, hsp⟩
            · exact hfills f hmem
            · refine ⟨m, hm1lt, by rw [hgdm1]; exact hsp.1, ?_, ?_⟩
              · rw [hgdm, ← hprev f.symbol hsymmem]
                exact hchg
              · rcases hsp.2.2 with ⟨h1, h2⟩ | ⟨h1, h2⟩
                · exact Or.inl ⟨h1, by rw [hsp.1, h2]⟩
                · exact Or.inr ⟨h1, by rw [hsp.1, h2]⟩

/-- Every fill produced by the date loop of `Backtester.run` satisfies the
no-lookahead fill specification. -/
theorem runState_fillSpec (cfg : BTConfig) :
    ∀ f ∈ (runState cfg).fills, fillSpec cfg (calendar cfg) f := by
  apply runDays_fills_master cfg (calendar cfg) (calendar cfg) 0 (initState cfg) rfl
  · intro s _
    simp [initState, prevAt]
  · intro f hf
    simp [initState] at hf

/-! ### The calendar has no duplicate dates -/

theorem insertSorted_perm (d : Nat) (l : List Nat) : (insertSorted d l).Perm (d :: l) := by
  induction l with
  | nil => exact List.Perm.refl _
  | cons x xs ih =>
      simp only [insertSorted]
      split
      · exact List.Perm.refl _
      · exact (List.Perm.cons x ih).trans (List.Perm.swap d x xs)

theorem sortDates_perm (l : List Nat) : (sortDates l).Perm l := by
  induction l with
  | nil => exact List.Perm.refl _
  | cons x xs ih =>
      simp only [sortDates, List.foldr_cons]
      exact (insertSorted_perm x _).trans (List.Perm.cons x ih)

theorem calendar_nodup (cfg : BTConfig) : (calendar cfg).Nodup := by
  unfold calendar
  cases hsyms : cfg.syms with
  | nil => exact List.nodup_nil
  | cons s rest =>
      exact ((sortDates_perm _).nodup_iff).mpr (List.nodup_dedup _)

theorem calendar_getD_inj (cfg : BTConfig) {a b : Nat}
    (ha : a < (calendar cfg).length) (hb : b < (calendar cfg).length)
    (heq : (calendar cfg).getD a 0 = (calendar cfg).getD b 0) : a = b := by
  rw [List.getD_eq_getElem?_getD, List.getD_eq_getElem?_getD,
      List.getElem?_eq_getElem ha, List.getElem?_eq_getElem hb] at heq
  simp only [Option.getD_some] at heq
  exact ((calendar_nodup cfg).getElem_inj_iff).mp heq

/-! ### Ledger lookup lemmas -/

theorem plookup_append_single (ps : List (String × Position)) (sym s2 : String) (v : Position)
    (h : s2 ≠ sym) : plookup s2 (ps ++ [(sym, v)]) = plookup s2 ps := by
  induction ps with
  | nil => simp [plookup, Ne.symm h]
  | cons e t ih =>
      simp only [List.cons_append, plookup]
      split
      · rfl
      · exact ih

theorem plookup_setdefault_ne (ps : List (String × Position)) (sym s2 : String) (h : s2 ≠ sym) :
    plookup s2 (setdefault ps sym) = plookup s2 ps := by
  unfold setdefault
  split
  · rfl
  · exact plookup_append_single ps sym s2 _ h

theorem plookup_updatePos_ne (ps : List (String × Position)) (sym s2 : String) (v : Position)
    (h : s2 ≠ sym) : plookup s2 (updatePos ps sym v) = plookup s2 ps := by
  induction ps with
  | nil => rfl
  | cons e t ih =>
      simp only [updatePos, List.map_cons]
      by_cases he : e.1 = sym
      · rw [if_pos he]
        simp only [plookup]
        rw [if_neg (by rw [he]; exact Ne.symm h), if_neg (by rw [he]; exact Ne.symm h)]
        exact ih
      · rw [if_neg he]
        simp only [plookup]
        by_cases h2 : e.1 = s2
        · rw [if_pos h2, if_pos h2]
        · rw [if_neg h2, if_neg h2]
          exact ih

/-! ### Trade reconstruction lemmas -/

@[simp]
theorem addLongEntry_pos (s : SymState) (dt : Nat) (px psc : ℚ) (q : Int) :
    (addLongEntry s dt px psc q).pos = s.pos := rfl

@[simp]
theorem addShortEntry_pos (s : SymState) (dt : Nat) (px psc : ℚ) (q : Int) :
    (addShortEntry s dt px psc q).pos = s.pos := rfl

@[simp]
theorem addLongExit_pos (s : SymState) (px psc : ℚ) (q : Int) :
    (addLongExit s px psc q).pos = s.pos := rfl

@[simp]
theorem addShortExit_pos (s : SymState) (px psc : ℚ) (q : Int) :
    (addShortExit s px psc q).pos = s.pos := rfl

@[simp]
theorem closeTrade_pos (sym : String) (dt : Nat) (s : SymState) :
    (closeTrade sym dt s).1.pos = s.pos := by
  rcases hs : s.entry_side with _ | side0
  · simp [closeTrade, hs]
  · simp only [closeTrade, hs]
    split <;> rfl

theorem closeTrade_symbol (sym : String) (dt : Nat) (s : SymState) :
    ∀ t ∈ (closeTrade sym dt s).2, t.symbol = sym := by
  intro t ht
  rcases hs : s.entry_side with _ | side0 <;> simp only [closeTrade, hs] at ht
  · simp at ht
  · split at ht
    · simp at ht
    · rw [List.mem_singleton.mp ht]

theorem processRow_symbol (s0 : SymState) (r : Row) :
    ∀ t ∈ (processRow s0 r).2, t.symbol = r.symbol := by
  intro t ht
  simp only [processRow] at ht
  repeat' split at ht
  all_goals first
    | exact closeTrade_symbol _ _ _ t ht
    | simp at ht

theorem processRow_pos (s0 : SymState) (r : Row) : (processRow s0 r).1.pos = rowPos s0.pos r := by
  simp only [processRow, rowPos]
  repeat' split
  all_goals simp

theorem processRow_no_touch (s0 : SymState) (r : Row) (h : rowTouch s0.pos r = false) :
    (processRow s0 r).2 = [] := by
  unfold rowTouch at h
  simp only [processRow]
  split_ifs at h ⊢ <;> first | rfl | simp_all

theorem perSymFold_no_touch : ∀ (rows : List Row) (s : SymState),
    noZeroTouch rows s.pos = true → (perSymFold rows s).2 = [] := by
  intro rows
  induction rows with
  | nil => intro s _; rfl
  | cons r rs ih =>
      intro s h
      simp only [noZeroTouch, Bool.and_eq_true, Bool.not_eq_true'] at h
      obtain ⟨h1, h2⟩ := h
      have h3 : noZeroTouch rs ((processRow s r).1.pos) = true := by
        rw [processRow_pos]
        exact h2
      simp only [perSymFold]
      rw [processRow_no_touch s r h1, ih (processRow s r).1 h3]
      rfl

/-- Per-symbol projection of the whole reconstruction pass: the trades of
one symbol are exactly the trades of the per-symbol fold over that symbol's
rows, and so is its final accumulator. -/
theorem rtFold_proj (s : String) :
    ∀ (rows : List Row) (σ : String → SymState) (ts : List Trade),
      (rows.foldl rtStep (σ, ts)).1 s =
        (perSymFold (rows.filter (fun r => r.symbol = s)) (σ s)).1 ∧
      (rows.foldl rtStep (σ, ts)).2.filter (fun t => t.symbol = s) =
        ts.filter (fun t => t.symbol = s) ++
          (perSymFold (rows.filter (fun r => r.symbol = s)) (σ s)).2 := by
  intro rows
  induction rows with
  | nil =>
      intro σ ts
      simp [perSymFold]
  | cons r rows ih =>
      intro σ ts
      simp only [List.foldl_cons, List.filter_cons]
      by_cases hr : r.symbol = s
      · rw [if_pos (by simp [hr])]
        simp only [rtStep]
        obtain ⟨ihs, iht⟩ := ih (fupd σ r.symbol (processRow (σ r.symbol) r).1)
          (ts ++ (processRow (σ r.symbol) r).2)
        constructor
        · rw [ihs]
          simp only [perSymFold, hr, fupd_same]
        · rw [iht]
          have hfe : (processRow (σ r.symbol) r).2.filter (fun t => t.symbol = s) =
              (processRow (σ r.symbol) r).2 := by
            apply List.filter_eq_self.mpr
            intro t ht
            simp [processRow_symbol _ _ t ht, hr]
          rw [List.filter_append, hfe]
          simp only [perSymFold, hr, fupd_same]
          rw [List.append_assoc]
      · rw [if_neg (by simp [hr])]
        simp only [rtStep]
        obtain ⟨ihs, iht⟩ := ih (fupd σ r.symbol (processRow (σ r.symbol) r).1)
          (ts ++ (processRow (σ r.symbol) r).2)
        have hfupd : fupd σ r.symbol (processRow (σ r.symbol) r).1 s = σ s :=
          fupd_ne _ _ _ _ (fun hss => hr hss.symm)
        constructor
        · rw [ihs, hfupd]
        · rw [iht, hfupd]
          have hfe : (processRow (σ r.symbol) r).2.filter (fun t => t.symbol = s) = [] := by
            apply List.filter_eq_nil_iff.mpr
            intro t ht
            simp [processRow_symbol _ _ t ht, hr]
          rw [List.filter_append, hfe, List.append_nil]

/-! ### Sharpe branch lemmas -/

theorem pctChange_length (e : List ℚ) : (pctChange e).length = e.length - 1 := by
  simp only [pctChange, List.length_map, List.length_zip, List.length_tail]
  omega

theorem excessOf_length_le (e : List ℚ) (rf : ℚ) :
    (excessOf e rf).length ≤ (dropna (pctChange e)).length := by
  simp only [excessOf, List.length_map]
  exact List.length_filterMap_le _ _

theorem sharpe_short (e : List ℚ) (rf : ℚ) (h : e.length < 2) : sharpe e rf = some 0 := by
  have h0 : (pctChange e).length = 0 := by
    rw [pctChange_length]
    omega
  have h1 : pctChange e = [] := List.length_eq_zero.mp h0
  simp only [sharpe, h1]
  rfl

theorem sharpe_zero_var (e : List ℚ) (rf : ℚ)
    (hfin : (dropna (pctChange e)).all isFin = true)
    (h2 : 2 ≤ (excessOf e rf).length) (hv : sampleVar (excessOf e rf) = 0) :
    sharpe e rf = some 0 := by
  have hlen : ¬(dropna (pctChange e)).length = 0 := by
    have := excessOf_length_le e rf
    omega
  simp only [sharpe]
  rw [if_neg hlen, if_neg (not_not_intro hfin), if_neg (by omega), if_pos hv]

theorem sharpe_formula (e : List ℚ) (rf : ℚ)
    (hfin : (dropna (pctChange e)).all isFin = true)
    (h2 : 2 ≤ (excessOf e rf).length) (hv : sampleVar (excessOf e rf) ≠ 0) :
    sharpe e rf = some ((listMean (excessOf e rf) : ℝ) /
      Real.sqrt ((sampleVar (excessOf e rf) : ℚ) : ℝ) * Real.sqrt 252) := by
  have hlen : ¬(dropna (pctChange e)).length = 0 := by
    have := excessOf_length_le e rf
    omega
  simp only [sharpe]
  rw [if_neg hlen, if_neg (not_not_intro hfin), if_neg (by omega), if_neg hv]

/-- A zero equity value followed by a zero is a 0/0 return: it is `NaN`,
`dropna` removes it, and a two-point all-zero series yields the neutral 0
just as the empty series does. -/
theorem sharpe_zero_zero : sharpe [0, 0] 0 = some 0 := by
  simp only [sharpe]
  rfl

/-- A zero equity value followed by a non-zero one is an infinite return:
`dropna` keeps it, `std(ddof=1)` becomes `NaN`, and `sharpe` returns `NaN`
(`none`), not 0. -/
theorem sharpe_inf_nan : sharpe [5, 0, 0] 0 = none ∧ sharpe [1, 0, 1] 0 = none := by
  constructor
  · simp only [sharpe]
    rfl
  · simp only [sharpe]
    rfl

/-! ### Additional concrete inputs for witnesses -/

/-- The first fill recorded in the `posCfg` run (BUY 9 shares at 10 on the
second calendar date, leaving 10 cash and 100 equity). -/
def posFill0 : Fill :=
  { date := 1, symbol := "A", side := "BUY", qty := 9, price := 10, commission := 0,
    cash_after := 10, equity_after := 100 }

/-- A run whose signal is constantly 0: the target never changes. -/
def constCfg : BTConfig :=
  { syms := ["A"], data := fun _ => posMd, signal := fun _ _ => 0,
    initial_capital := 100, costs := { commission_rate := 0, slippage_rate := 0 },
    allow_shorts := false }

/-- A two-symbol ledger used to exercise the frame property. -/
def pNine : Portfolio :=
  { cash := 100, positions := [("A", ⟨"A", 5, 10⟩), ("B", ⟨"B", 3, 7⟩)], fills := [] }

/-! ### Claim theorems -/

/-- C1 (counterexample to the claim as stated): a run with non-negative
initial capital and commission and slippage rates in [0, 1] that still
records a fill with negative `cash_after` — the exit SELL executes at a
negative Open price, which no affordability cap guards against. -/
theorem run_solvency_cex :
    (0 ≤ cexCfg.initial_capital ∧ 0 ≤ cexCfg.costs.commission_rate ∧
      cexCfg.costs.commission_rate ≤ 1 ∧ 0 ≤ cexCfg.costs.slippage_rate ∧
      cexCfg.costs.slippage_rate ≤ 1) ∧
    (runBT cexCfg).isSome = true ∧
    ∃ f ∈ (runState cexCfg).fills, f.cash_after < 0 :=
  ⟨by decide!, by decide!, by decide!⟩

/-- C1 (amended): solvency of `Backtester.run` — under non-negative initial
capital, commission and slippage rates in [0, 1] and strictly positive Open
prices, every fill appended to the fill list has `cash_after ≥ 0`: the
buy-side affordability cap `⌊cash / (price · (1 + commission_rate))⌋` keeps
a BUY within available cash, and a SELL only adds cash. -/
theorem run_solvency (cfg : BTConfig) (h0 : 0 ≤ cfg.initial_capital)
    (hc0 : 0 ≤ cfg.costs.commission_rate) (hc1 : cfg.costs.commission_rate ≤ 1)
    (hs0 : 0 ≤ cfg.costs.slippage_rate) (hs1 : cfg.costs.slippage_rate ≤ 1)
    (hopen : ∀ s d, 0 < (cfg.data s).openPx d) :
    ∀ f ∈ (runState cfg).fills, 0 ≤ f.cash_after :=
  (runDays_solvent cfg hc0 hc1 hs0 hs1 hopen (calendar cfg) (initState cfg)
    ⟨h0, fun f hf => absurd hf (List.not_mem_nil f)⟩).2

theorem run_solvency_witness :
    (0 ≤ posCfg.initial_capital ∧ 0 ≤ posCfg.costs.commission_rate ∧
      posCfg.costs.commission_rate ≤ 1 ∧ 0 ≤ posCfg.costs.slippage_rate ∧
      posCfg.costs.slippage_rate ≤ 1 ∧ (∀ s d, 0 < (posCfg.data s).openPx d)) ∧
    (∀ f ∈ (runState posCfg).fills, 0 ≤ f.cash_after) :=
  ⟨⟨by decide!, by decide!, by decide!, by decide!, by decide!,
    fun s d => by norm_num [posCfg, posMd]⟩,
   run_solvency posCfg (by decide!) (by decide!) (by decide!) (by decide!) (by decide!)
     (fun s d => by norm_num [posCfg, posMd])⟩

/-- C2 (code bug): when the buy-side exit's affordability cap reduces the
quantity to zero, the engine still appends a `Fill` with `qty = 0` (the
`if qty == 0: pass` at engine.py lines 130-132 does not skip the append),
contradicting the claim that no fill is produced for that leg.  The run
below shorts at 10 and must cover at 1000, which cash cannot afford. -/
theorem exit_cap_zero_fill :
    (runBT bugCfg).isSome = true ∧
    ∃ f ∈ (runState bugCfg).fills, f.side = "BUY" ∧ f.qty = 0 :=
  ⟨by decide!, by decide!⟩

/-- C3: no-lookahead — every fill produced by `Backtester.run` is dated at
the calendar date exactly one step after a decision date on which the
processed target changed (with the previous target initialised to 0), and
priced at that next date's Open times (1 + slippage_rate) for a BUY and
times (1 − slippage_rate) for a SELL. -/
theorem no_lookahead (cfg : BTConfig) :
    ∀ f ∈ (runState cfg).fills, fillSpec cfg (calendar cfg) f :=
  runState_fillSpec cfg

theorem no_lookahead_witness :
    posFill0 ∈ (runState posCfg).fills ∧ fillSpec posCfg (calendar posCfg) posFill0 :=
  ⟨by decide!, no_lookahead posCfg posFill0 (by decide!)⟩

/-- C4: flip reconstruction — on the two-fill list [BUY 100 @ 10,
SELL 150 @ 12] with zero commission for one symbol, `round_trip_trades`
returns exactly one LONG trade of quantity 100 with entry 1000, exit 1200
and pnl 200, while the remaining open SHORT position of 50 shares stays in
the per-symbol accumulator and contributes no trade. -/
theorem flip_reconstruction :
    roundTripTrades [flipFill1, flipFill2] =
      [{ symbol := "A", entry_date := 0, exit_date := 1, side := "LONG", qty := 100,
         entry_amount := 1000, exit_amount := 1200, pnl := 200, duration_days := 1 }] ∧
    (rtProcess [flipFill1, flipFill2]).1 "A" =
      { pos := -50, entry_side := some "SHORT", entry_date := some 1, entry_amt := 600,
        exit_amt := 0, qty_total := 50 } :=
  ⟨by decide!, by decide!⟩

/-- C5: long-only guarantee — with `allow_shorts = False`, a raw −1 signal
is remapped to 0 before any trading logic, every symbol's position is ≥ 0
after every day of the run, and any newly appended SELL fill sells exactly
the shares currently held long, leaving the symbol flat. -/
theorem long_only_run (cfg : BTConfig) (hsh : cfg.allow_shorts = false) :
    (∀ s dt, cfg.signal s dt = -1 → procTarget cfg s dt = 0) ∧
    (∀ m s, 0 ≤ (stateAfterDays cfg m).positions s) ∧
    (∀ dt nd st sym, (∀ s2, 0 ≤ st.positions s2) →
      ∀ f ∈ (stepSym cfg dt nd st sym).fills, f ∉ st.fills → f.side = "SELL" →
        f.qty = st.positions sym ∧ (stepSym cfg dt nd st sym).positions sym = 0) := by
  refine ⟨?_, ?_, ?_⟩
  · intro s dt hm1
    rw [procTarget_no_shorts cfg hsh, if_neg (by rw [hm1]; decide)]
  · intro m s
    exact runDays_nonneg cfg hsh _ (initState cfg) (fun _ => le_refl 0) s
  · intro dt nd st sym hnn
    exact stepSym_sell_fills cfg dt nd st sym hsh hnn

theorem long_only_run_witness :
    (posCfg.allow_shorts = false) ∧ (∀ s, 0 ≤ (stateAfterDays posCfg 1).positions s) :=
  ⟨by decide!, (long_only_run posCfg (by decide!)).2.1 1⟩

/-- C6: trade churn suppression — if on each of the consecutive decision
dates at positions i..j the processed target equals the previously recorded
target (initialised to 0), then no fill for that symbol is dated at any of
the corresponding execution dates i+1..j+1. -/
theorem churn_suppression (cfg : BTConfig) (sym : String) (i j : Nat) (_hij : i ≤ j)
    (hj : j + 1 < (calendar cfg).length)
    (hconst : ∀ k, i ≤ k → k ≤ j →
      procTarget cfg sym ((calendar cfg).getD k 0) = prevAt cfg (calendar cfg) sym k) :
    ∀ f ∈ (runState cfg).fills, f.symbol = sym →
      ∀ k, i ≤ k → k ≤ j → f.date ≠ (calendar cfg).getD (k + 1) 0 := by
  intro f hf hsym k hik hkj hdate
  obtain ⟨k2, hk2len, hd2, hchg, -⟩ := runState_fillSpec cfg f hf
  have hkk : k2 + 1 = k + 1 :=
    calendar_getD_inj cfg hk2len (by omega) (hd2.symm.trans hdate)
  have hk2 : k2 = k := by omega
  rw [hk2, hsym] at hchg
  exact hchg (hconst k hik hkj)

theorem churn_suppression_witness :
    ((0 : Nat) ≤ 1 ∧ 1 + 1 < (calendar constCfg).length ∧
      (∀ k, 0 ≤ k → k ≤ 1 →
        procTarget constCfg "A" ((calendar constCfg).getD k 0) =
          prevAt constCfg (calendar constCfg) "A" k)) ∧
    (∀ f ∈ (runState constCfg).fills, f.symbol = "A" →
      ∀ k, 0 ≤ k → k ≤ 1 → f.date ≠ (calendar constCfg).getD (k + 1) 0) := by
  have hconst : ∀ k, 0 ≤ k → k ≤ 1 →
      procTarget constCfg "A" ((calendar constCfg).getD k 0) =
        prevAt constCfg (calendar constCfg) "A" k := by
    intro k h0 h1
    interval_cases k
    · decide!
    · decide!
  exact ⟨⟨by omega, by decide!, hconst⟩,
    churn_suppression constCfg "A" 0 1 (by omega) (by decide!) hconst⟩

/-- C7: the `sharpe` metric returns mean(daily excess return) over
stdev(daily excess return) times √252, and returns exactly 0 for every
equity series with fewer than 2 points and for every series whose
post-`dropna` daily returns are all finite with zero sample variance
(`std(ddof=1) == 0`, which needs at least 2 surviving returns), rather
than failing.  An infinite return — a zero equity value followed by a
non-zero one — makes `std` `NaN` and is outside the zero-variance
condition. -/
theorem sharpe_spec :
    (∀ (e : List ℚ) (rf : ℚ), e.length < 2 → sharpe e rf = some 0) ∧
    (∀ (e : List ℚ) (rf : ℚ), (dropna (pctChange e)).all isFin = true →
      2 ≤ (excessOf e rf).length → sampleVar (excessOf e rf) = 0 →
      sharpe e rf = some 0) ∧
    (∀ (e : List ℚ) (rf : ℚ), (dropna (pctChange e)).all isFin = true →
      2 ≤ (excessOf e rf).length → sampleVar (excessOf e rf) ≠ 0 →
      sharpe e rf = some ((listMean (excessOf e rf) : ℝ) /
        Real.sqrt ((sampleVar (excessOf e rf) : ℚ) : ℝ) * Real.sqrt 252)) :=
  ⟨sharpe_short, sharpe_zero_var, sharpe_formula⟩

theorem sharpe_spec_witness :
    ((dropna (pctChange [1, 1, 1])).all isFin = true ∧
      2 ≤ (excessOf [1, 1, 1] 0).length ∧ sampleVar (excessOf [1, 1, 1] 0) = 0) ∧
    sharpe [1, 1, 1] 0 = some 0 :=
  ⟨⟨by decide!, by decide!, by decide!⟩,
   sharpe_spec.2.1 [1, 1, 1] 0 (by decide!) (by decide!) (by decide!)⟩

/-- C8: reconstruction determinism and open positions — `round_trip_trades`
is a pure function (two runs on the same fill list are equal), and a symbol
whose running position never returns to exactly zero while its rows are
processed contributes no `Trade` to the output: its still-open position is
never emitted. -/
theorem reconstruction_det_open :
    (∀ fills : List Fill, roundTripTrades fills = roundTripTrades fills) ∧
    (∀ (fills : List Fill) (s : String),
      noZeroTouch ((sortRows (fills.map toRow)).filter (fun r => r.symbol = s)) 0 = true →
      (roundTripTrades fills).filter (fun t => t.symbol = s) = []) := by
  constructor
  · intro fills
    rfl
  · intro fills s h
    by_cases hf : fills.isEmpty
    · simp [roundTripTrades, hf]
    · simp only [roundTripTrades, if_neg hf, rtProcess]
      obtain ⟨-, ht⟩ := rtFold_proj s (sortRows (fills.map toRow)) (fun _ => freshSym) []
      rw [ht, perSymFold_no_touch _ freshSym h]
      simp

theorem reconstruction_det_open_witness :
    noZeroTouch ((sortRows ([flipFill1].map toRow)).filter (fun r => r.symbol = "A")) 0 = true ∧
    (roundTripTrades [flipFill1]).filter (fun t => t.symbol = "A") = [] :=
  ⟨by decide!, reconstruction_det_open.2 [flipFill1] "A" (by decide!)⟩

/-- C9: frame property of the ledger — one `Portfolio._apply_fill` call
appends exactly one `Fill` carrying the given order fields, moves cash by
exactly the notional plus/minus commission of the order, and leaves every
other symbol's `Position` (quantity and average cost) untouched. -/
theorem applyFill_frame (p : Portfolio) (date : Nat) (symbol side : String) (qty : Int)
    (price commission : ℚ) (prices : String → ℚ) :
    (∀ s2, s2 ≠ symbol →
      plookup s2 (p.applyFill date symbol side qty price commission prices).positions =
        plookup s2 p.positions) ∧
    (∃ f : Fill, (p.applyFill date symbol side qty price commission prices).fills =
        p.fills ++ [f] ∧ f.date = date ∧ f.symbol = symbol ∧ f.side = side ∧ f.qty = qty ∧
        f.price = price ∧ f.commission = commission) ∧
    ((p.applyFill date symbol side qty price commission prices).cash =
      if side = "BUY" then p.cash - ((qty : ℚ) * price + commission)
      else p.cash + ((qty : ℚ) * price - commission)) := by
  simp only [Portfolio.applyFill]
  split
  · refine ⟨?_, ⟨_, rfl, rfl, rfl, rfl, rfl, rfl, rfl⟩, rfl⟩
    intro s2 h2
    rw [plookup_updatePos_ne _ _ _ _ h2, plookup_setdefault_ne _ _ _ h2]
  · refine ⟨?_, ⟨_, rfl, rfl, rfl, rfl, rfl, rfl, rfl⟩, rfl⟩
    intro s2 h2
    rw [plookup_updatePos_ne _ _ _ _ h2, plookup_setdefault_ne _ _ _ h2]

theorem applyFill_frame_witness :
    ("B" ≠ "A") ∧
    plookup "B" (pNine.applyFill 0 "A" "BUY" 2 10 1 (fun _ => 0)).positions =
      plookup "B" pNine.positions :=
  ⟨by decide!, (applyFill_frame pNine 0 "A" "BUY" 2 10 1 (fun _ => 0)).1 "B" (by decide!)⟩

/-- C10: if the symbols' bar date indexes have empty intersection, the run
reaches `last_dt = dates[-1]` with an empty date list and raises
(`IndexError`), modelled as `none` — it does not return an empty equity
series or a descriptive precondition error. -/
theorem empty_calendar_raises (cfg : BTConfig) (_hs : cfg.syms ≠ [])
    (hcal : calendar cfg = []) : runBT cfg = none := by
  simp only [runBT, hcal]
  rfl

theorem empty_calendar_raises_witness :
    (disjointCfg.syms ≠ [] ∧ calendar disjointCfg = []) ∧ runBT disjointCfg = none :=
  ⟨⟨by decide!, by decide!⟩, empty_calendar_raises disjointCfg (by decide!) (by decide!)⟩

end BT
